import Mathlib

/-!
Verification of the text-normalization / scoring subsystem and the sandboxed
code-execution harness of `src/data_process/utils.py`.

The Python string operations are embedded over `List Char` at ASCII fidelity:
`str.lower`, `string.punctuation`, the regex classes `\w`, `\s` and `[a-zA-Z]`,
`str.split()` and `str.strip()` are modelled on their ASCII behaviour
(non-ASCII characters are treated as plain, unclassified characters).
Python floats are modelled by exact rationals.
-/

namespace FusionBench

/-- ASCII lowercasing of a single character, as `str.lower` acts on ASCII. -/
def lowerChar (c : Char) : Char :=
  if 65 ≤ c.toNat ∧ c.toNat ≤ 90 then Char.ofNat (c.toNat + 32) else c

/-- Membership in Python's `string.punctuation` (the 32 ASCII punctuation
characters, code points 33-47, 58-64, 91-96 and 123-126). -/
def isPunc (c : Char) : Bool :=
  (33 ≤ c.toNat && c.toNat ≤ 47) || (58 ≤ c.toNat && c.toNat ≤ 64) ||
  (91 ≤ c.toNat && c.toNat ≤ 96) || (123 ≤ c.toNat && c.toNat ≤ 126)

/-- ASCII whitespace, the characters recognised by `str.split()` / regex `\s`
(space, tab, newline, vertical tab, form feed, carriage return). -/
def isWs (c : Char) : Bool :=
  c = ' ' || c = '\t' || c = '\n' || c = '\r' || c.toNat = 11 || c.toNat = 12

/-- Regex word character `\w` (ASCII): a digit (48-57), an uppercase letter
(65-90), a lowercase letter (97-122), or the underscore (95). -/
def isWordChar (c : Char) : Bool :=
  (48 ≤ c.toNat && c.toNat ≤ 57) || (65 ≤ c.toNat && c.toNat ≤ 90) ||
  (97 ≤ c.toNat && c.toNat ≤ 122) || c.toNat = 95

/-- Regex class `[a-zA-Z]`. -/
def isAsciiLetter (c : Char) : Bool :=
  (97 ≤ c.toNat && c.toNat ≤ 122) || (65 ≤ c.toNat && c.toNat ≤ 90)

/-- The inner helper `lower` of `normalize_answer`: `text.lower()`. -/
def lower (l : List Char) : List Char := l.map lowerChar

/-- The inner helper `remove_punc` of `normalize_answer`:
keep exactly the characters not in `string.punctuation`. -/
def remove_punc (l : List Char) : List Char := l.filter (fun c => !isPunc c)

/-- Does a (maximal) word run equal one of the article words `a`, `an`, `the`
matched by the regex pattern of `remove_articles`. -/
def isArticle (buf : List Char) : Bool :=
  buf = ['a'] || buf = ['a', 'n'] || buf = ['t', 'h', 'e']

/-- Emit a completed word run: an article run is replaced by a single space
(the replacement string of `re.sub`), any other run is kept verbatim. -/
def flushBuf (buf : List Char) : List Char :=
  if isArticle buf then [' '] else buf

/-- Scanner for `re.sub(r'\b(a|an|the)\b', ' ', text)`: `buf` is the current
run of word characters.  A match of the pattern is exactly a maximal run of
`\w` characters equal to `a`, `an` or `the` (the surrounding `\b` anchors force
the alternation to cover a whole word run), and each match is replaced by one
space; all other characters are kept. -/
def remArtAux (buf : List Char) : List Char → List Char
  | [] => flushBuf buf
  | c :: cs =>
    if isWordChar c then remArtAux (buf ++ [c]) cs
    else flushBuf buf ++ c :: remArtAux [] cs

/-- The inner helper `remove_articles` of `normalize_answer`. -/
def remove_articles (l : List Char) : List Char := remArtAux [] l

/-- Scanner for `str.split()`: `buf` is the current (non-whitespace) token. -/
def wordsAux (buf : List Char) : List Char → List (List Char)
  | [] => if buf = [] then [] else [buf]
  | c :: cs =>
    if isWs c then (if buf = [] then wordsAux [] cs else buf :: wordsAux [] cs)
    else wordsAux (buf ++ [c]) cs

/-- Python `text.split()`: whitespace-delimited tokens, empty tokens dropped. -/
def pySplit (l : List Char) : List (List Char) := wordsAux [] l

/-- The inner helper `white_space_fix` of `normalize_answer`:
`' '.join(text.split())`. -/
def white_space_fix (l : List Char) : List Char :=
  List.intercalate [' '] (pySplit l)

/-- Scanner state for `re.findall(r'\(\s*[a-zA-Z]\s*\)', text)`.
`inParen buf` means the scanner has consumed an opening paren and a run of
whitespace (`buf` holds those characters); `afterLetter buf` means it has
additionally consumed the single letter and a further run of whitespace. -/
inductive McState where
  | outside : McState
  | inParen (buf : List Char) : McState
  | afterLetter (buf : List Char) : McState

/-- Left-to-right non-overlapping scan for the pattern
open paren, `\s*`, one `[a-zA-Z]` letter, `\s*`, close paren.  Because the
character classes of the pattern are pairwise disjoint and a match can only
begin at an opening paren, Python's try-at-each-position scan is equivalent to
this single-pass machine (a failed candidate restarts only at a later `(`). -/
def mcFindAux (st : McState) : List Char → List (List Char)
  | [] => []
  | c :: cs =>
    match st with
    | .outside =>
        if c = '(' then mcFindAux (.inParen ['(']) cs else mcFindAux .outside cs
    | .inParen buf =>
        if isWs c then mcFindAux (.inParen (buf ++ [c])) cs
        else if isAsciiLetter c then mcFindAux (.afterLetter (buf ++ [c])) cs
        else if c = '(' then mcFindAux (.inParen ['(']) cs
        else mcFindAux .outside cs
    | .afterLetter buf =>
        if c = ')' then (buf ++ [')']) :: mcFindAux .outside cs
        else if isWs c then mcFindAux (.afterLetter (buf ++ [c])) cs
        else if c = '(' then mcFindAux (.inParen ['(']) cs
        else mcFindAux .outside cs

/-- All matches of `re.findall(r'\(\s*[a-zA-Z]\s*\)', text)`, in order. -/
def mcFindAll (l : List Char) : List (List Char) := mcFindAux .outside l

/-- The inner helper `mc_remove` of `normalize_answer`: the last match of the
multiple-choice pattern, or the empty string when there is none. -/
def mc_remove (l : List Char) : List Char :=
  match (mcFindAll l).getLast? with
  | none => []
  | some m => m

/-- `normalize_answer(s, normal_method)` from `src/data_process/utils.py`:
multiple-choice extraction when `normal_method == "mc"`, otherwise
`white_space_fix(remove_articles(remove_punc(lower(s))))`. -/
def normalize_answer (s : String) (normal_method : String := "") : String :=
  if normal_method = "mc" then String.mk (mc_remove s.data)
  else String.mk (white_space_fix (remove_articles (remove_punc (lower s.data))))

/-- Python's substring test `needle in hay` on strings as character lists. -/
def subStrOf (needle : List Char) : List Char → Bool
  | [] => needle.isEmpty
  | c :: cs => needle.isPrefixOf (c :: cs) || subStrOf needle cs

/-- `sum((Counter(ps) & Counter(gs)).values())`: the size of the multiset
intersection, each distinct token of `ps` counted with the minimum of its
multiplicities in `ps` and `gs`. -/
def counterInterSize (ps gs : List (List Char)) : Nat :=
  (ps.dedup.map (fun t => min (ps.count t) (gs.count t))).sum

/-- The whitespace tokens of the standard normalization of a string
(`normalize_answer(s).split()`). -/
def norm_tokens (s : String) : List (List Char) :=
  pySplit (normalize_answer s "").data

/-- The `num_same` value computed inside `f1_score`. -/
def num_same_of (prediction ground_truth : String) : Nat :=
  counterInterSize (norm_tokens prediction) (norm_tokens ground_truth)

/-- `f1_score(prediction, ground_truth)` from `src/data_process/utils.py`,
returning `(f1, precision, recall)`; Python floats are modelled by rationals,
so the source's `1.0 *` int-to-float coercion is the cast `Nat → Rat` here.
The local named `recall` in the source is `recallV` (`recall` is reserved). -/
def f1_score (prediction ground_truth : String) : ℚ × ℚ × ℚ :=
  let normalized_prediction := normalize_answer prediction ""
  let normalized_ground_truth := normalize_answer ground_truth ""
  let ZERO_METRIC : ℚ × ℚ × ℚ := (0, 0, 0)
  if normalized_prediction ∈ ["yes", "no", "noanswer"] ∧
      normalized_prediction ≠ normalized_ground_truth then ZERO_METRIC
  else if normalized_ground_truth ∈ ["yes", "no", "noanswer"] ∧
      normalized_prediction ≠ normalized_ground_truth then ZERO_METRIC
  else
    let prediction_tokens := pySplit normalized_prediction.data
    let ground_truth_tokens := pySplit normalized_ground_truth.data
    let num_same := counterInterSize prediction_tokens ground_truth_tokens
    if num_same = 0 then ZERO_METRIC
    else
      let precision : ℚ := num_same / prediction_tokens.length
      let recallV : ℚ := num_same / ground_truth_tokens.length
      let f1 := (2 * precision * recallV) / (precision + recallV)
      (f1, precision, recallV)

/-- Python `s.strip()`: drop leading and trailing whitespace. -/
def pyStrip (l : List Char) : List Char :=
  ((l.dropWhile isWs).reverse.dropWhile isWs).reverse

/-- `exact_match_score(prediction, ground_truth, normal_method)` from
`src/data_process/utils.py`.  In `"mc"` mode: the stripped, lowercased ground
truth is a substring of the stripped, lowercased `"mc"`-normalized prediction;
otherwise: equality of the two normalizations. -/
def exact_match_score (prediction ground_truth : String)
    (normal_method : String := "") : Bool :=
  if normal_method = "mc" then
    subStrOf (lower (pyStrip ground_truth.data))
      (lower (pyStrip (normalize_answer prediction "mc").data))
  else
    normalize_answer prediction normal_method ==
      normalize_answer ground_truth normal_method

/-- `cemf1_score(prediction, ground_truth)` from `src/data_process/utils.py`:
`1.0` on normalized equality or substring containment, else the `f1`
component of `f1_score`. -/
def cemf1_score (prediction ground_truth : String) : ℚ :=
  let norm_prediction := normalize_answer prediction ""
  let norm_gt := normalize_answer ground_truth ""
  if norm_prediction = norm_gt ∨ subStrOf norm_gt.data norm_prediction.data then 1
  else (f1_score prediction ground_truth).1

/-- `cem_score(prediction, ground_truth)` from `src/data_process/utils.py`:
`1.0` on normalized equality or substring containment, else `0.0`. -/
def cem_score (prediction ground_truth : String) : ℚ :=
  let norm_prediction := normalize_answer prediction ""
  let norm_gt := normalize_answer ground_truth ""
  if norm_prediction = norm_gt ∨ subStrOf norm_gt.data norm_prediction.data then 1
  else 0

/-!
Model of `evaluate_code(generated_code, test_cases, timeout)`.

The generated code and the tests are embedded as programs of a small Python
fragment (integer expressions, unary function definitions, assert statements)
sufficient for the executions the claims describe.  CPython's `exec`
name-resolution discipline is modelled exactly: `exec` receives the indices of
a globals dict and a locals dict in a store of dicts; `def` writes the new
function into the locals dict; the function value captures (the index of) the
globals dict, and a call resolves free names of the body in its own frame and
then in the captured globals dict only.  `evaluate_code` runs
`exec(generated_code, \x7b\x7d, local_vars)` — globals a fresh empty dict 0,
locals dict 1 — and then `exec(test, local_vars)` for each test, where dict 1
serves as both globals and locals.  The wall-clock `signal.alarm` timeout is
modelled by a fuel bound on evaluation steps, whose exhaustion raises the
model's `TimeoutError`. -/

/-- Binary operators of the generated-code fragment. -/
inductive BinOp where
  | add | sub | mul | le | eq
deriving DecidableEq, Repr

/-- Expressions of the generated-code fragment: integer literals, variables,
binary operations, conditionals, and unary function calls by name. -/
inductive Expr where
  | lit : Int → Expr
  | var : String → Expr
  | bin : BinOp → Expr → Expr → Expr
  | cond : Expr → Expr → Expr → Expr
  | call : String → Expr → Expr
deriving DecidableEq, Repr

/-- Statements: `def f(p): return body` and `assert e`. -/
inductive Stmt where
  | funDecl : String → String → Expr → Stmt
  | assertStmt : Expr → Stmt
deriving DecidableEq, Repr

/-- Runtime values: integers, booleans, and function values.  A function value
records its parameter, body, and the index of the globals dict captured at
definition time (CPython's `__globals__`). -/
inductive Val where
  | int : Int → Val
  | bool : Bool → Val
  | closure : String → Expr → Nat → Val
deriving DecidableEq, Repr

/-- The exceptions the model can raise.  In Python every one of these classes
derives from `Exception` (and `AssertionError` additionally matches the
dedicated `except AssertionError` clause). -/
inductive PyExn where
  | assertionError
  | nameError : String → PyExn
  | typeError
  | timeoutError
deriving DecidableEq, Repr

/-- Which exceptions match the `except AssertionError` clause. -/
def is_assertion_error : PyExn → Bool
  | .assertionError => true
  | _ => false

/-- Which exceptions match the `except Exception` clause: all of the model's
exceptions, since `AssertionError`, `NameError`, `TypeError` and
`TimeoutError` all derive from `Exception` in Python. -/
def is_exception_subclass : PyExn → Bool
  | .assertionError => true
  | .nameError _ => true
  | .typeError => true
  | .timeoutError => true

/-- A name-binding dict, most recent binding first. -/
abbrev PyEnv := List (String × Val)

/-- A store of dicts; function values refer to their globals dict by index. -/
abbrev Store := List PyEnv

/-- Look a name up in a dict. -/
def lookupEnv : List (String × Val) → String → Option Val
  | [], _ => none
  | (k, v) :: r, x => if k = x then some v else lookupEnv r x

/-- Read dict `i` of the store (an absent index reads as an empty dict). -/
def getDict (st : Store) (i : Nat) : List (String × Val) := st.getD i []

/-- Overwrite dict `i` of the store. -/
def setDict (st : Store) (i : Nat) (e : List (String × Val)) : Store :=
  st.set i e

/-- Python truthiness of a value (the `assert` test). -/
def truthy : Val → Bool
  | .int n => decide (n ≠ 0)
  | .bool b => b
  | .closure _ _ _ => true

/-- Apply a binary operator; arithmetic and `<=` demand integers
(`TypeError` otherwise, as CPython raises), `==` never raises. -/
def applyBin : BinOp → Val → Val → Except PyExn Val
  | .add, .int a, .int b => .ok (.int (a + b))
  | .sub, .int a, .int b => .ok (.int (a - b))
  | .mul, .int a, .int b => .ok (.int (a * b))
  | .le, .int a, .int b => .ok (.bool (decide (a ≤ b)))
  | .eq, .int a, .int b => .ok (.bool (decide (a = b)))
  | .eq, .bool a, .bool b => .ok (.bool (a == b))
  | .eq, _, _ => .ok (.bool false)
  | _, _, _ => .error .typeError

/-- Evaluate an expression.  `frame` is the local scope, `gid` the index of
the globals dict used for names not bound in `frame` (CPython's
local-then-global-then-builtin rule, with no builtins in the fragment); an
unbound name raises `NameError`.  A call evaluates the body in a fresh frame
binding the parameter, with the callee's captured globals index.  Every step
consumes one unit of fuel; exhausted fuel raises the timeout exception. -/
def evalExpr : Nat → Store → List (String × Val) → Nat → Expr → Except PyExn Val
  | 0, _, _, _, _ => .error .timeoutError
  | Nat.succ _, _, _, _, .lit n => .ok (.int n)
  | Nat.succ _, store, frame, gid, .var x =>
      match lookupEnv frame x with
      | some v => .ok v
      | none =>
          match lookupEnv (getDict store gid) x with
          | some v => .ok v
          | none => .error (.nameError x)
  | Nat.succ fuel, store, frame, gid, .bin op a b => do
      let va ← evalExpr fuel store frame gid a
      let vb ← evalExpr fuel store frame gid b
      applyBin op va vb
  | Nat.succ fuel, store, frame, gid, .cond c t e => do
      let vc ← evalExpr fuel store frame gid c
      if truthy vc then evalExpr fuel store frame gid t
      else evalExpr fuel store frame gid e
  | Nat.succ fuel, store, frame, gid, .call f a =>
      match (lookupEnv frame f).orElse (fun _ => lookupEnv (getDict store gid) f) with
      | none => .error (.nameError f)
      | some (.closure p body cgid) => do
          let v ← evalExpr fuel store frame gid a
          evalExpr fuel store [(p, v)] cgid body
      | some _ => .error .typeError

/-- Execute one top-level statement under `exec` with globals dict `gid` and
locals dict `lid`: `def` binds the function in the locals dict, capturing the
globals dict; `assert` evaluates its expression (names resolving in the locals
dict, then the globals dict) and raises `AssertionError` when falsy. -/
def execStmt (fuel : Nat) (store : Store) (gid lid : Nat) : Stmt → Except PyExn Store
  | .funDecl f p body =>
      .ok (setDict store lid ((f, .closure p body gid) :: getDict store lid))
  | .assertStmt e => do
      let v ← evalExpr fuel store (getDict store lid) gid e
      if truthy v then .ok store else .error .assertionError

/-- Execute a statement sequence in order; the first exception aborts the
remaining statements. -/
def execStmts (fuel : Nat) : Store → (gid lid : Nat) → List Stmt → Except PyExn Store
  | store, _, _, [] => .ok store
  | store, gid, lid, s :: rest => do
      let store' ← execStmt fuel store gid lid s
      execStmts fuel store' gid lid rest

/-- `evaluate_code(generated_code, test_cases, timeout)` from
`src/data_process/utils.py`.  The body executes the generated code with a
fresh empty globals dict (index 0) and a fresh locals dict `local_vars`
(index 1), then executes each test with `local_vars` as its (shared) globals
and locals dict; the surrounding `try` converts an `AssertionError` to
`False`, converts any other `Exception` (including the model's `NameError`,
`TypeError` and the alarm's `TimeoutError`) to `False` after logging it, and
returns `True` when nothing was raised.  `Except.error` would mean an
exception escaping to the caller. -/
def evaluate_code (generated_code : List Stmt) (test_cases : List Stmt)
    (fuel : Nat) : Except PyExn Bool :=
  let run : Except PyExn Store := do
    let store1 ← execStmts fuel [[], []] 0 1 generated_code
    execStmts fuel store1 1 1 test_cases
  match run with
  | .ok _ => .ok true
  | .error e =>
      if is_assertion_error e then .ok false
      else if is_exception_subclass e then .ok false
      else .error e

/-- Modelled from the spec: the same harness with the isolation boundary
removed, i.e. `exec(generated_code, g)` followed by `exec(test, g)` for each
test with one shared dict `g` serving as globals and locals throughout (the
"shared namespace" the implicit claim about `exec(code, \x7b\x7d, local_vars)`
compares against). -/
def run_shared (generated_code : List Stmt) (test_cases : List Stmt)
    (fuel : Nat) : Except PyExn Bool :=
  let run : Except PyExn Store := do
    let store1 ← execStmts fuel [[]] 0 0 generated_code
    execStmts fuel store1 0 0 test_cases
  match run with
  | .ok _ => .ok true
  | .error e =>
      if is_assertion_error e then .ok false
      else if is_exception_subclass e then .ok false
      else .error e

/-- The self-referential generated code of the isolation claim:
`def f(n): return 1 if n <= 0 else n * f(n-1)`. -/
def factCode : List Stmt :=
  [.funDecl "f" "n"
    (.cond (.bin .le (.var "n") (.lit 0))
      (.lit 1)
      (.bin .mul (.var "n") (.call "f" (.bin .sub (.var "n") (.lit 1)))))]

/-- The accompanying test: `assert f(3) == 6`. -/
def factTest : List Stmt :=
  [.assertStmt (.bin .eq (.call "f" (.lit 3)) (.lit 6))]

/-- A non-self-referential generated code: `def g(n): return n + 1`. -/
def incCode : List Stmt :=
  [.funDecl "g" "n" (.bin .add (.var "n") (.lit 1))]

/-- The accompanying test: `assert g(2) == 3`. -/
def incTest : List Stmt :=
  [.assertStmt (.bin .eq (.call "g" (.lit 2)) (.lit 3))]

/-! Helper lemmas for the sandbox-runner claims. -/

/-- Bind on a success in the `Except` monad. -/
lemma except_bind_ok {α β : Type} (a : α) (f : α → Except PyExn β) :
    (Except.ok a >>= f) = f a := rfl

/-- Bind on an exception in the `Except` monad. -/
lemma except_bind_error {α β : Type} (e : PyExn) (f : α → Except PyExn β) :
    ((Except.error e : Except PyExn α) >>= f) = Except.error e := rfl

/-- Every exception class the model can raise is converted to a boolean by
the handler chain of `evaluate_code`. -/
lemma evaluate_code_ok_cases (code tests : List Stmt) (fuel : Nat) :
    evaluate_code code tests fuel = .ok true ∨
      evaluate_code code tests fuel = .ok false := by
  unfold evaluate_code
  cases hr : (do
      let store1 ← execStmts fuel [[], []] 0 1 code
      execStmts fuel store1 1 1 tests : Except PyExn Store) with
  | ok s => left; simp [hr]
  | error e => right; cases e <;> simp [hr, is_assertion_error, is_exception_subclass]

/-- `evaluate_code` returns `True` exactly when the generated code and then
every test execute without raising. -/
lemma evaluate_code_true_iff (code tests : List Stmt) (fuel : Nat) :
    evaluate_code code tests fuel = .ok true ↔
      ∃ s s', execStmts fuel [[], []] 0 1 code = .ok s ∧
        execStmts fuel s 1 1 tests = .ok s' := by
  unfold evaluate_code
  cases hc : execStmts fuel [[], []] 0 1 code with
  | ok s =>
      cases ht : execStmts fuel s 1 1 tests with
      | ok s' => simp [hc, ht, except_bind_ok]
      | error e =>
          simp only [hc, except_bind_ok, ht]
          cases e <;>
            simp [is_assertion_error, is_exception_subclass, hc, ht]
  | error e =>
      simp only [hc, except_bind_error]
      cases e <;>
        simp [is_assertion_error, is_exception_subclass, hc]

/-- C1: for every pair of a generated program and a list of tests (and any
fuel budget), `evaluate_code` returns a boolean verdict and never lets an
exception reach the caller: every fault the execution can raise — assertion
failure, runtime error (`NameError`, `TypeError`), or timeout — is caught by
the handler chain and surfaced only as the returned `false`. -/
theorem evaluate_code_never_raises (code tests : List Stmt) (fuel : Nat) :
    evaluate_code code tests fuel = .ok true ∨
      evaluate_code code tests fuel = .ok false :=
  evaluate_code_ok_cases code tests fuel

/-- C2: `evaluate_code` returns `True` iff executing the generated code and
then every test, in the given order, completes without raising; the test list
is executed sequentially and the first exception aborts the remaining tests
(the executable equation of the test loop is bind, which discards the tail on
an exception); and every faulting run — assertion failure, other runtime
exception, or timeout — yields the verdict `False` (the result is always one
of the two booleans, and `True` only in the fault-free case). -/
theorem evaluate_code_verdict (code tests : List Stmt) (fuel : Nat) :
    (evaluate_code code tests fuel = .ok true ↔
      ∃ s s', execStmts fuel [[], []] 0 1 code = .ok s ∧
        execStmts fuel s 1 1 tests = .ok s')
    ∧ (∀ (store : Store) (t : Stmt) (rest : List Stmt),
        execStmts fuel store 1 1 (t :: rest)
          = (execStmt fuel store 1 1 t).bind fun s => execStmts fuel s 1 1 rest)
    ∧ (evaluate_code code tests fuel = .ok true ∨
        evaluate_code code tests fuel = .ok false) :=
  ⟨evaluate_code_true_iff code tests fuel,
   fun _ _ _ => rfl,
   evaluate_code_ok_cases code tests fuel⟩

/-- C9: with `exec(generated_code, \x7b\x7d, local_vars)` the generated
functions capture an empty globals dict, so a top-level function cannot
resolve its own name when called from a test: the recursive factorial with
test `assert f(3) == 6` yields `False`, the underlying fault being a
`NameError` for `f` raised while the tests run — though the same pair passes
under a single shared namespace — while the non-self-referential `g` stays
callable from its test because `local_vars` serves as the tests' globals. -/
theorem evaluate_code_isolated_globals :
    evaluate_code factCode factTest 50 = .ok false
    ∧ ((execStmts 50 [[], []] 0 1 factCode).bind
        (fun s => execStmts 50 s 1 1 factTest)) = .error (.nameError "f")
    ∧ run_shared factCode factTest 50 = .ok true
    ∧ evaluate_code incCode incTest 50 = .ok true :=
  ⟨rfl, rfl, rfl, rfl⟩

/-! Helper lemmas for the scoring claims. -/

/-- The empty needle is a substring of every string. -/
lemma subStrOf_nil (hay : List Char) : subStrOf [] hay = true := by
  induction hay with
  | nil => rfl
  | cons c cs ih => simp [subStrOf, ih, List.isPrefixOf]

/-- `subStrOf` decides the contiguous-substring relation. -/
lemma subStrOf_iff (needle hay : List Char) :
    subStrOf needle hay = true ↔ needle <:+: hay := by
  induction hay with
  | nil => simp [subStrOf, List.isEmpty_iff, List.infix_nil]
  | cons c cs ih =>
      simp [subStrOf, ih, List.infix_cons_iff, List.isPrefixOf_iff_prefix]

/-- C7: `exact_match_score` in multiple-choice mode succeeds exactly when the
stripped, lowercased ground truth is a contiguous substring of the stripped,
lowercased multiple-choice normalization of the prediction; in standard mode
it succeeds exactly when the two standard normalizations are equal; and
concretely `exact_match_score("The Cat.", "cat")` is `True`. -/
theorem exact_match_score_spec (p g : String) :
    (exact_match_score p g "mc" = true ↔
      lower (pyStrip g.data) <:+:
        lower (pyStrip (normalize_answer p "mc").data))
    ∧ (exact_match_score p g "" = true ↔
        normalize_answer p "" = normalize_answer g "")
    ∧ exact_match_score "The Cat." "cat" "" = true := by
  refine ⟨?_, ?_, by decide⟩
  · simp [exact_match_score, subStrOf_iff]
  · simp [exact_match_score]

/-- C10: a ground truth whose standard normalization is the empty string makes
`cem_score` and `cemf1_score` return `1.0` for every prediction (the empty
string is a substring of every normalized prediction), and a ground truth
whose `strip()` is empty makes multiple-choice `exact_match_score` succeed for
every prediction, even one containing no parenthesized choice marker. -/
theorem empty_ground_truth_scores (p g : String) :
    (normalize_answer g "" = "" → cem_score p g = 1 ∧ cemf1_score p g = 1)
    ∧ (pyStrip g.data = [] → exact_match_score p g "mc" = true) := by
  constructor
  · intro hg
    constructor
    · simp [cem_score, hg, subStrOf_nil]
    · simp [cemf1_score, hg, subStrOf_nil]
  · intro hg
    simp [exact_match_score, hg, lower, subStrOf_nil]

/-- Witness for C10 at concrete inputs: `"the"` normalizes to the empty
string, `" "` strips to the empty string, and the predictions contain no
choice marker. -/
theorem empty_ground_truth_scores_witness :
    cem_score "Anything at all" "the" = 1
    ∧ cemf1_score "Anything at all" "the" = 1
    ∧ exact_match_score "no marker here" " " "mc" = true :=
  ⟨((empty_ground_truth_scores "Anything at all" "the").1 (by decide)).1,
   ((empty_ground_truth_scores "Anything at all" "the").1 (by decide)).2,
   (empty_ground_truth_scores "no marker here" " ").2 (by decide)⟩

/-! Shape of the multiple-choice matches. -/

/-- Continuation shape after the single letter: whitespace then a final
closing paren. -/
def shapeTail : List Char → Bool
  | [] => false
  | c :: cs => if isWs c then shapeTail cs else c = ')' && cs = []

/-- Continuation shape after the opening paren: whitespace, one letter,
whitespace, closing paren. -/
def shapeAfterParen : List Char → Bool
  | [] => false
  | c :: cs => if isWs c then shapeAfterParen cs else isAsciiLetter c && shapeTail cs

/-- Declarative shape of a match of the multiple-choice pattern: an opening
paren, optional whitespace, one ASCII letter, optional whitespace, a closing
paren. -/
def mcShape : List Char → Bool
  | '(' :: rest => shapeAfterParen rest
  | _ => false

/-- ASCII letters are not whitespace. -/
lemma not_ws_of_letter {c : Char} (h : isAsciiLetter c = true) : isWs c = false := by
  have h65 : 65 ≤ c.toNat := by
    simp only [isAsciiLetter, Bool.or_eq_true, Bool.and_eq_true, decide_eq_true_eq] at h
    omega
  simp only [isWs, Bool.or_eq_false_iff, decide_eq_false_iff_not]
  refine ⟨⟨⟨⟨⟨?_, ?_⟩, ?_⟩, ?_⟩, ?_⟩, ?_⟩ <;>
    first
      | (intro hc; subst hc; simp at h65)
      | omega

/-- Skipping a whitespace prefix in `shapeAfterParen`. -/
lemma shapeAfterParen_ws (w r : List Char) (hw : ∀ c ∈ w, isWs c = true) :
    shapeAfterParen (w ++ r) = shapeAfterParen r := by
  induction w with
  | nil => rfl
  | cons c cs ih =>
      simp only [List.cons_append, shapeAfterParen, hw c (by simp), if_true]
      exact ih (fun c hc => hw c (by simp [hc]))

/-- Skipping a whitespace prefix in `shapeTail`. -/
lemma shapeTail_ws (w r : List Char) (hw : ∀ c ∈ w, isWs c = true) :
    shapeTail (w ++ r) = shapeTail r := by
  induction w with
  | nil => rfl
  | cons c cs ih =>
      simp only [List.cons_append, shapeTail, hw c (by simp), if_true]
      exact ih (fun c hc => hw c (by simp [hc]))

/-- Invariant carried by the multiple-choice scanner states. -/
def mcInv : McState → Prop
  | .outside => True
  | .inParen buf => ∃ w, buf = '(' :: w ∧ ∀ c ∈ w, isWs c = true
  | .afterLetter buf => ∃ w x w', buf = '(' :: (w ++ x :: w')
      ∧ (∀ c ∈ w, isWs c = true) ∧ isAsciiLetter x = true ∧ ∀ c ∈ w', isWs c = true

/-- The trivial invariant of the outside state. -/
lemma mcInv_outside : mcInv .outside := trivial

/-- The invariant of the state entered at an opening paren. -/
lemma mcInv_open : mcInv (.inParen ['(']) := ⟨[], rfl, by simp⟩

/-- Every string the scanner emits has the declared match shape. -/
lemma mcFindAux_shape : ∀ (l : List Char) (st : McState), mcInv st →
    ∀ m ∈ mcFindAux st l, mcShape m = true := by
  intro l
  induction l with
  | nil => intro st _ m hm; simp [mcFindAux] at hm
  | cons c cs ih =>
      intro st hst m hm
      cases st with
      | outside =>
          by_cases hc : c = '('
          · exact ih (.inParen ['(']) mcInv_open m (by simpa [mcFindAux, hc] using hm)
          · exact ih .outside mcInv_outside m (by simpa [mcFindAux, hc] using hm)
      | inParen buf =>
          obtain ⟨w, rfl, hw⟩ := hst
          by_cases hws : isWs c = true
          · refine ih (.inParen (('(' :: w) ++ [c])) ⟨w ++ [c], by simp, ?_⟩ m
              (by simpa [mcFindAux, hws] using hm)
            intro d hd
            rcases List.mem_append.mp hd with h | h
            · exact hw d h
            · exact (List.mem_singleton.mp h) ▸ hws
          · by_cases hl : isAsciiLetter c = true
            · refine ih (.afterLetter (('(' :: w) ++ [c])) ⟨w, c, [], by simp, hw, hl, by simp⟩ m
                (by simpa [mcFindAux, hws, hl] using hm)
            · by_cases hc : c = '('
              · exact ih (.inParen ['(']) mcInv_open m (by simpa [mcFindAux, hws, hl, hc] using hm)
              · exact ih .outside mcInv_outside m (by simpa [mcFindAux, hws, hl, hc] using hm)
      | afterLetter buf =>
          obtain ⟨w, x, w', rfl, hw, hx, hw'⟩ := hst
          by_cases hc : c = ')'
          · rw [mcFindAux] at hm
            simp only [hc, if_true] at hm
            rcases List.mem_cons.mp hm with h | h
            · subst h
              show mcShape ('(' :: (w ++ x :: w') ++ [')']) = true
              have h1 : mcShape ('(' :: (w ++ x :: w') ++ [')'])
                  = shapeAfterParen ((w ++ x :: w') ++ [')']) := rfl
              rw [h1, List.append_assoc, shapeAfterParen_ws w _ hw]
              show shapeAfterParen (x :: (w' ++ [')'])) = true
              rw [shapeAfterParen]
              simp only [not_ws_of_letter hx, if_false, hx, Bool.true_and]
              rw [shapeTail_ws w' _ hw']
              rfl
            · exact ih .outside mcInv_outside m h
          · by_cases hws : isWs c = true
            · refine ih (.afterLetter (('(' :: (w ++ x :: w')) ++ [c]))
                ⟨w, x, w' ++ [c], by simp, hw, hx, ?_⟩ m
                (by simpa [mcFindAux, hc, hws] using hm)
              intro d hd
              rcases List.mem_append.mp hd with h | h
              · exact hw' d h
              · exact (List.mem_singleton.mp h) ▸ hws
            · by_cases hp : c = '('
              · exact ih (.inParen ['(']) mcInv_open m (by simpa [mcFindAux, hc, hws, hp] using hm)
              · exact ih .outside mcInv_outside m (by simpa [mcFindAux, hc, hws, hp] using hm)

/-- C6: in multiple-choice mode `normalize_answer` scans the original,
unmodified input for the matches of the pattern open paren, optional
whitespace, one letter, optional whitespace, close paren (every emitted match
has that shape), returns the empty string when there is no match and the last
match verbatim otherwise; concretely the prediction with markers `(a)` and
`(b)` normalizes to `"(b)"` and a string without markers to `""`. -/
theorem normalize_answer_mc_spec (s : String) :
    ((mcFindAll s.data).all mcShape = true)
    ∧ (normalize_answer s "mc" =
        match (mcFindAll s.data).getLast? with
        | none => ""
        | some m => String.mk m)
    ∧ normalize_answer "The answer is (a), not (b)" "mc" = "(b)"
    ∧ normalize_answer "no choice here" "mc" = "" := by
  refine ⟨List.all_eq_true.mpr (mcFindAux_shape _ _ mcInv_outside), ?_, by decide, by decide⟩
  cases h : (mcFindAll s.data).getLast? with
  | none => simp [normalize_answer, mc_remove, h]
  | some m => simp [normalize_answer, mc_remove, h]

/-! The token-multiset intersection underlying `f1_score`. -/

/-- `List.count` via the structural `BEq` agrees with the
`DecidableEq`-induced instance Mathlib's counting lemmas use. -/
lemma count_eq_count' (x : List Char) (l : List (List Char)) :
    @List.count (List Char) List.instBEq x l
      = @List.count (List Char) instBEqOfDecidableEq x l := by
  induction l with
  | nil => rfl
  | cons a t ih =>
      have hbeq : (@BEq.beq _ List.instBEq a x) = (@BEq.beq _ instBEqOfDecidableEq a x) := by
        by_cases h : a = x <;> simp [h]
      rw [@List.count_cons _ List.instBEq, @List.count_cons _ instBEqOfDecidableEq, ih, hbeq]

/-- Summing the multiplicities of the distinct elements gives the length. -/
lemma sum_count_length (l : List (List Char)) :
    ∑ t ∈ l.toFinset, l.count t = l.length := by
  rw [Finset.sum_congr rfl (fun x _ => count_eq_count' x l)]
  exact List.sum_toFinset_count_eq_length l

/-- A `Finset.sum` over a list's `toFinset` is the sum of the map over the
deduplicated list. -/
lemma sum_toFinset_eq (l : List (List Char)) (f : List Char → ℕ) :
    ∑ t ∈ l.toFinset, f t = (l.dedup.map f).sum := by
  rw [Finset.sum]
  change (Multiset.map f (l.toFinset.val)).sum = _
  rfl

/-- The `Counter` intersection size is the sum, over the distinct tokens both
lists share, of the minimum of the two multiplicities. -/
lemma counterInterSize_eq_sum (ps gs : List (List Char)) :
    counterInterSize ps gs
      = ∑ t ∈ ps.toFinset ∩ gs.toFinset, min (ps.count t) (gs.count t) := by
  unfold counterInterSize
  rw [← sum_toFinset_eq]
  refine (Finset.sum_subset Finset.inter_subset_left ?_).symm
  intro x hx hnx
  have hxg : x ∉ gs.toFinset := fun h => hnx (Finset.mem_inter.mpr ⟨hx, h⟩)
  have h0 : gs.count x = 0 :=
    List.count_eq_zero.mpr (fun h => hxg (List.mem_toFinset.mpr h))
  simp [h0]

/-- The `Counter` intersection size is symmetric. -/
lemma counterInterSize_comm (ps gs : List (List Char)) :
    counterInterSize ps gs = counterInterSize gs ps := by
  rw [counterInterSize_eq_sum, counterInterSize_eq_sum, Finset.inter_comm]
  exact Finset.sum_congr rfl (fun x _ => min_comm _ _)

/-- The intersection size is at most the number of prediction tokens. -/
lemma counterInterSize_le_left (ps gs : List (List Char)) :
    counterInterSize ps gs ≤ ps.length := by
  rw [counterInterSize_eq_sum]
  calc ∑ t ∈ ps.toFinset ∩ gs.toFinset, min (ps.count t) (gs.count t)
      ≤ ∑ t ∈ ps.toFinset ∩ gs.toFinset, ps.count t :=
        Finset.sum_le_sum (fun i _ => min_le_left _ _)
    _ ≤ ∑ t ∈ ps.toFinset, ps.count t :=
        Finset.sum_le_sum_of_subset Finset.inter_subset_left
    _ = ps.length := sum_count_length ps

/-- The intersection size is at most the number of ground-truth tokens. -/
lemma counterInterSize_le_right (ps gs : List (List Char)) :
    counterInterSize ps gs ≤ gs.length := by
  rw [counterInterSize_comm]; exact counterInterSize_le_left gs ps

/-- `num_same` is symmetric in the two inputs. -/
lemma num_same_of_comm (p g : String) : num_same_of p g = num_same_of g p :=
  counterInterSize_comm _ _

/-- Unfolding of `f1_score` once both special-value guards are known to
fail. -/
lemma f1_score_eq (p g : String)
    (hp : ¬(normalize_answer p "" ∈ (["yes", "no", "noanswer"] : List String) ∧
        normalize_answer p "" ≠ normalize_answer g ""))
    (hg : ¬(normalize_answer g "" ∈ (["yes", "no", "noanswer"] : List String) ∧
        normalize_answer p "" ≠ normalize_answer g "")) :
    f1_score p g =
      if num_same_of p g = 0 then (0, 0, 0)
      else
        ((2 * ((num_same_of p g : ℚ) / ((norm_tokens p).length : ℚ))
            * ((num_same_of p g : ℚ) / ((norm_tokens g).length : ℚ)))
          / (((num_same_of p g : ℚ) / ((norm_tokens p).length : ℚ))
            + ((num_same_of p g : ℚ) / ((norm_tokens g).length : ℚ))),
         (num_same_of p g : ℚ) / ((norm_tokens p).length : ℚ),
         (num_same_of p g : ℚ) / ((norm_tokens g).length : ℚ)) := by
  unfold f1_score num_same_of norm_tokens
  rw [if_neg hp, if_neg hg]

/-- The two guards of `f1_score` force the zero triple whenever either
normalization is a special value and the normalizations differ. -/
lemma f1_score_zero_of_guard (p g : String)
    (h : normalize_answer p "" ∈ (["yes", "no", "noanswer"] : List String) ∨
        normalize_answer g "" ∈ (["yes", "no", "noanswer"] : List String))
    (hne : normalize_answer p "" ≠ normalize_answer g "") :
    f1_score p g = (0, 0, 0) := by
  unfold f1_score
  rcases h with h | h
  · rw [if_pos ⟨h, hne⟩]
  · by_cases h1 : normalize_answer p "" ∈ (["yes", "no", "noanswer"] : List String) ∧
        normalize_answer p "" ≠ normalize_answer g ""
    · rw [if_pos h1]
    · rw [if_neg h1, if_pos ⟨h, hne⟩]

/-- Core symmetry of the `f1` component when no guard fires. -/
lemma f1_first_comm_core (a b : String)
    (hpa : ¬(normalize_answer a "" ∈ (["yes", "no", "noanswer"] : List String) ∧
        normalize_answer a "" ≠ normalize_answer b ""))
    (hga : ¬(normalize_answer b "" ∈ (["yes", "no", "noanswer"] : List String) ∧
        normalize_answer a "" ≠ normalize_answer b ""))
    (hpb : ¬(normalize_answer b "" ∈ (["yes", "no", "noanswer"] : List String) ∧
        normalize_answer b "" ≠ normalize_answer a ""))
    (hgb : ¬(normalize_answer a "" ∈ (["yes", "no", "noanswer"] : List String) ∧
        normalize_answer b "" ≠ normalize_answer a "")) :
    (f1_score a b).1 = (f1_score b a).1 := by
  rw [f1_score_eq a b hpa hga, f1_score_eq b a hpb hgb, num_same_of_comm b a]
  by_cases hns : num_same_of a b = 0
  · simp [hns]
  · rw [if_neg hns, if_neg hns]
    dsimp only
    ring

/-- C3 (counterexample): the claim repeats the spec's assertion that the
special-casing of `yes`/`no`/`noanswer` makes scoring NOT symmetric; at the
special-cased pair `("yes", "no")` the two orders return the identical triple
`(0, 0, 0)`, so the special-casing is symmetric there. -/
theorem f1_score_special_symmetry_counterexample :
    f1_score "yes" "no" = f1_score "no" "yes"
    ∧ f1_score "yes" "no" = (0, 0, 0)
    ∧ f1_score "no" "yes" = (0, 0, 0) := ⟨by decide, by decide, by decide⟩

/-- C3 (amended): the `f1` component of `f1_score` is symmetric for all
inputs — including the special-cased ones — and whenever either input's
standard normalization is one of `yes`, `no`, `noanswer` and the two
normalizations differ, both orders return exactly `(0, 0, 0)`; the
special-casing therefore preserves symmetry rather than breaking it. -/
theorem f1_score_symmetry (a b : String) :
    ((f1_score a b).1 = (f1_score b a).1)
    ∧ ((normalize_answer a "" ∈ (["yes", "no", "noanswer"] : List String) ∨
          normalize_answer b "" ∈ (["yes", "no", "noanswer"] : List String)) →
        normalize_answer a "" ≠ normalize_answer b "" →
        f1_score a b = (0, 0, 0) ∧ f1_score b a = (0, 0, 0)) := by
  constructor
  · by_cases hne : normalize_answer a "" = normalize_answer b ""
    · exact f1_first_comm_core a b (fun h => h.2 hne) (fun h => h.2 hne)
        (fun h => h.2 hne.symm) (fun h => h.2 hne.symm)
    · by_cases hmem : normalize_answer a "" ∈ (["yes", "no", "noanswer"] : List String) ∨
          normalize_answer b "" ∈ (["yes", "no", "noanswer"] : List String)
      · rw [f1_score_zero_of_guard a b hmem hne,
            f1_score_zero_of_guard b a hmem.symm (fun h => hne h.symm)]
      · exact f1_first_comm_core a b (fun h => hmem (Or.inl h.1)) (fun h => hmem (Or.inr h.1))
          (fun h => hmem (Or.inr h.1)) (fun h => hmem (Or.inl h.1))
  · intro hmem hne
    exact ⟨f1_score_zero_of_guard a b hmem hne,
      f1_score_zero_of_guard b a hmem.symm (fun h => hne h.symm)⟩

/-- Witness for the amended C3 at the special pair `("yes", "no")`. -/
theorem f1_score_symmetry_witness :
    (f1_score "yes" "no").1 = (f1_score "no" "yes").1
    ∧ f1_score "yes" "no" = (0, 0, 0) ∧ f1_score "no" "yes" = (0, 0, 0) :=
  ⟨(f1_score_symmetry "yes" "no").1,
   (f1_score_symmetry "yes" "no").2 (Or.inl (by decide)) (by decide)⟩

/-- C4: past the special-value guard, `f1_score` computes `num_same` as the
multiset-intersection size of the two token lists (each token counted up to
the minimum of its multiplicities), returns `(0, 0, 0)` when `num_same` is
zero, and otherwise returns the triple
`(2·precision·recall/(precision+recall), num_same/|prediction tokens|,
num_same/|ground-truth tokens|)`; concretely `f1_score("yes", "no")` is
`(0, 0, 0)` and `f1_score("the quick fox", "quick fox")` has `num_same = 2`,
`precision = 1.0`, `recall = 1.0`, `f1 = 1.0`. -/
theorem f1_score_formula (p g : String)
    (hp : ¬(normalize_answer p "" ∈ (["yes", "no", "noanswer"] : List String) ∧
        normalize_answer p "" ≠ normalize_answer g ""))
    (hg : ¬(normalize_answer g "" ∈ (["yes", "no", "noanswer"] : List String) ∧
        normalize_answer p "" ≠ normalize_answer g "")) :
    (num_same_of p g = ∑ t ∈ (norm_tokens p).toFinset ∩ (norm_tokens g).toFinset,
        min ((norm_tokens p).count t) ((norm_tokens g).count t))
    ∧ (f1_score p g =
        if num_same_of p g = 0 then (0, 0, 0)
        else
          ((2 * ((num_same_of p g : ℚ) / ((norm_tokens p).length : ℚ))
              * ((num_same_of p g : ℚ) / ((norm_tokens g).length : ℚ)))
            / (((num_same_of p g : ℚ) / ((norm_tokens p).length : ℚ))
              + ((num_same_of p g : ℚ) / ((norm_tokens g).length : ℚ))),
           (num_same_of p g : ℚ) / ((norm_tokens p).length : ℚ),
           (num_same_of p g : ℚ) / ((norm_tokens g).length : ℚ)))
    ∧ f1_score "yes" "no" = (0, 0, 0)
    ∧ num_same_of "the quick fox" "quick fox" = 2
    ∧ f1_score "the quick fox" "quick fox" = (1, 1, 1) := by
  refine ⟨counterInterSize_eq_sum _ _, f1_score_eq p g hp hg, by decide, by decide, ?_⟩
  rw [f1_score_eq "the quick fox" "quick fox" (by decide) (by decide)]
  have h2 : num_same_of "the quick fox" "quick fox" = 2 := by decide
  have hl1 : (norm_tokens "the quick fox").length = 2 := by decide
  have hl2 : (norm_tokens "quick fox").length = 2 := by decide
  rw [h2, hl1, hl2]
  norm_num

/-- Witness for C4 at the guard-passing pair of the claim. -/
theorem f1_score_formula_witness :
    num_same_of "the quick fox" "quick fox" = 2
    ∧ f1_score "the quick fox" "quick fox" = (1, 1, 1) :=
  ⟨(f1_score_formula "the quick fox" "quick fox" (by decide) (by decide)).2.2.2.1,
   (f1_score_formula "the quick fox" "quick fox" (by decide) (by decide)).2.2.2.2⟩

/-- C8: `f1_score` never divides by zero — when `num_same` is nonzero both
token lists are nonempty and `precision + recall` is strictly positive — and
each component of the returned triple lies in `[0, 1]`. -/
theorem f1_score_bounds (p g : String) :
    (num_same_of p g = 0 ∨
      (0 < (norm_tokens p).length ∧ 0 < (norm_tokens g).length ∧
        0 < (num_same_of p g : ℚ) / ((norm_tokens p).length : ℚ)
          + (num_same_of p g : ℚ) / ((norm_tokens g).length : ℚ)))
    ∧ (0 ≤ (f1_score p g).1 ∧ (f1_score p g).1 ≤ 1)
    ∧ (0 ≤ (f1_score p g).2.1 ∧ (f1_score p g).2.1 ≤ 1)
    ∧ (0 ≤ (f1_score p g).2.2 ∧ (f1_score p g).2.2 ≤ 1) := by
  have hle1 : num_same_of p g ≤ (norm_tokens p).length := counterInterSize_le_left _ _
  have hle2 : num_same_of p g ≤ (norm_tokens g).length := counterInterSize_le_right _ _
  constructor
  · by_cases hns : num_same_of p g = 0
    · exact Or.inl hns
    · have hn : 0 < num_same_of p g := Nat.pos_of_ne_zero hns
      have hL1 : 0 < (norm_tokens p).length := lt_of_lt_of_le hn hle1
      have hL2 : 0 < (norm_tokens g).length := lt_of_lt_of_le hn hle2
      refine Or.inr ⟨hL1, hL2, ?_⟩
      have h1 : (0 : ℚ) < (num_same_of p g : ℚ) / ((norm_tokens p).length : ℚ) :=
        div_pos (by exact_mod_cast hn) (by exact_mod_cast hL1)
      have h2 : (0 : ℚ) < (num_same_of p g : ℚ) / ((norm_tokens g).length : ℚ) :=
        div_pos (by exact_mod_cast hn) (by exact_mod_cast hL2)
      linarith
  · by_cases hG : (normalize_answer p "" ∈ (["yes", "no", "noanswer"] : List String) ∧
        normalize_answer p "" ≠ normalize_answer g "") ∨
        (normalize_answer g "" ∈ (["yes", "no", "noanswer"] : List String) ∧
          normalize_answer p "" ≠ normalize_answer g "")
    · have hz : f1_score p g = (0, 0, 0) := by
        rcases hG with h | h
        · exact f1_score_zero_of_guard p g (Or.inl h.1) h.2
        · exact f1_score_zero_of_guard p g (Or.inr h.1) h.2
      rw [hz]
      norm_num
    · have hp := (not_or.mp hG).1
      have hg := (not_or.mp hG).2
      rw [f1_score_eq p g hp hg]
      by_cases hns : num_same_of p g = 0
      · rw [if_pos hns]; norm_num
      · rw [if_neg hns]
        have hn : 0 < num_same_of p g := Nat.pos_of_ne_zero hns
        have hL1 : 0 < (norm_tokens p).length := lt_of_lt_of_le hn hle1
        have hL2 : 0 < (norm_tokens g).length := lt_of_lt_of_le hn hle2
        have hpr0 : (0 : ℚ) < (num_same_of p g : ℚ) / ((norm_tokens p).length : ℚ) :=
          div_pos (by exact_mod_cast hn) (by exact_mod_cast hL1)
        have hrc0 : (0 : ℚ) < (num_same_of p g : ℚ) / ((norm_tokens g).length : ℚ) :=
          div_pos (by exact_mod_cast hn) (by exact_mod_cast hL2)
        have hpr1 : (num_same_of p g : ℚ) / ((norm_tokens p).length : ℚ) ≤ 1 :=
          (div_le_one (by exact_mod_cast hL1)).mpr (by exact_mod_cast hle1)
        have hrc1 : (num_same_of p g : ℚ) / ((norm_tokens g).length : ℚ) ≤ 1 :=
          (div_le_one (by exact_mod_cast hL2)).mpr (by exact_mod_cast hle2)
        set x : ℚ := (num_same_of p g : ℚ) / ((norm_tokens p).length : ℚ) with hx
        set y : ℚ := (num_same_of p g : ℚ) / ((norm_tokens g).length : ℚ) with hy
        dsimp only
        have hsum : (0 : ℚ) < x + y := by linarith
        refine ⟨⟨?_, ?_⟩, ⟨le_of_lt hpr0, hpr1⟩, ⟨le_of_lt hrc0, hrc1⟩⟩
        · positivity
        · rw [div_le_one hsum]
          nlinarith [mul_nonneg (sub_nonneg.mpr hpr1) hrc0.le,
            mul_nonneg (sub_nonneg.mpr hrc1) hpr0.le]

/-! Idempotence of standard normalization. -/

/-- `Char.ofNat` below the surrogate range round-trips through `toNat`. -/
lemma toNat_ofNat_small {n : Nat} (h : n < 55296) : (Char.ofNat n).toNat = n := by
  unfold Char.ofNat
  rw [dif_pos]
  · rfl
  · exact Or.inl (by exact_mod_cast h)

/-- ASCII lowercasing is idempotent. -/
lemma lowerChar_idem (c : Char) : lowerChar (lowerChar c) = lowerChar c := by
  unfold lowerChar
  by_cases h : 65 ≤ c.toNat ∧ c.toNat ≤ 90
  · rw [if_pos h]
    have ht : (Char.ofNat (c.toNat + 32)).toNat = c.toNat + 32 :=
      toNat_ofNat_small (by omega)
    rw [if_neg]
    intro hcon
    rw [ht] at hcon
    omega
  · rw [if_neg h, if_neg h]

/-- A whitespace character has a code point of at most 32. -/
lemma isWs_toNat {c : Char} (h : isWs c = true) : c.toNat ≤ 32 := by
  simp only [isWs, Bool.or_eq_true, decide_eq_true_eq] at h
  rcases h with ((((h | h) | h) | h) | h) | h <;> first | omega | (subst h; decide)

/-- A word character has a code point of at least 48. -/
lemma isWordChar_toNat {c : Char} (h : isWordChar c = true) : 48 ≤ c.toNat := by
  simp only [isWordChar, Bool.or_eq_true, Bool.and_eq_true, decide_eq_true_eq] at h
  omega

/-- Word characters are never whitespace. -/
lemma isWs_eq_false_of_word {c : Char} (h : isWordChar c = true) : isWs c = false := by
  by_cases hw : isWs c = true
  · have := isWs_toNat hw
    have := isWordChar_toNat h
    omega
  · simpa using hw


/-- Mapping a function that fixes every element is the identity. -/
lemma map_eq_self_of_fixed {l : List Char} (h : ∀ c ∈ l, lowerChar c = c) :
    lower l = l := by
  induction l with
  | nil => rfl
  | cons a t ih =>
      simp only [lower, List.map_cons, h a (by simp)]
      exact congrArg _ (ih (fun c hc => h c (by simp [hc])))

/-- Characters of a lowered string are fixed by lowering. -/
lemma lowerChar_fixed_of_mem_lower {c : Char} {l : List Char} (h : c ∈ lower l) :
    lowerChar c = c := by
  obtain ⟨a, _, rfl⟩ := List.mem_map.mp h
  exact lowerChar_idem a

/-- A punctuation-free string is unchanged by `remove_punc`. -/
lemma remove_punc_eq_self {l : List Char} (h : ∀ c ∈ l, isPunc c = false) :
    remove_punc l = l :=
  List.filter_eq_self.mpr (fun c hc => by simp [h c hc])

/-- Characters surviving `remove_punc` are from the input and
punctuation-free. -/
lemma mem_remove_punc {c : Char} {l : List Char} (h : c ∈ remove_punc l) :
    c ∈ l ∧ isPunc c = false := by
  have := List.mem_filter.mp h
  exact ⟨this.1, by simpa using this.2⟩

/-- Characters of a flushed run come from the run or are the space
replacement. -/
lemma mem_flushBuf {c : Char} {buf : List Char} (h : c ∈ flushBuf buf) :
    c ∈ buf ∨ c = ' ' := by
  unfold flushBuf at h
  split at h
  · simp at h; exact Or.inr h
  · exact Or.inl h

/-- Characters of the article-removal output come from the run buffer, the
input, or are the space replacement. -/
lemma mem_remArtAux {c : Char} :
    ∀ (l buf : List Char), c ∈ remArtAux buf l → c ∈ buf ∨ c ∈ l ∨ c = ' ' := by
  intro l
  induction l with
  | nil =>
      intro buf h
      rcases mem_flushBuf (by simpa [remArtAux] using h) with h | h
      · exact Or.inl h
      · exact Or.inr (Or.inr h)
  | cons d ds ih =>
      intro buf h
      rw [remArtAux] at h
      split at h
      · rcases ih _ h with hb | hl | hs
        · rcases List.mem_append.mp hb with hb | hb
          · exact Or.inl hb
          · exact Or.inr (Or.inl (List.mem_cons.mpr (Or.inl (by simpa using hb))))
        · exact Or.inr (Or.inl (by simp [hl]))
        · exact Or.inr (Or.inr hs)
      · rcases List.mem_append.mp h with hb | hb
        · rcases mem_flushBuf hb with hb | hb
          · exact Or.inl hb
          · exact Or.inr (Or.inr hb)
        · rcases List.mem_cons.mp hb with hb | hb
          · exact Or.inr (Or.inl (List.mem_cons.mpr (Or.inl hb)))
          · rcases ih _ hb with h0 | h0 | h0
            · simp at h0
            · exact Or.inr (Or.inl (by simp [h0]))
            · exact Or.inr (Or.inr h0)

/-- Characters of any token produced by the splitter come from the token
buffer or the input. -/
lemma mem_wordsAux {c : Char} {t : List Char} :
    ∀ (l buf : List Char), t ∈ wordsAux buf l → c ∈ t → c ∈ buf ∨ c ∈ l := by
  intro l
  induction l with
  | nil =>
      intro buf ht hc
      rw [wordsAux] at ht
      split at ht
      · simp at ht
      · rw [List.mem_singleton.mp ht] at hc
        exact Or.inl hc
  | cons d ds ih =>
      intro buf ht hc
      rw [wordsAux] at ht
      split at ht
      · split at ht
        · rcases ih _ ht hc with h | h
          · simp at h
          · exact Or.inr (by simp [h])
        · rcases List.mem_cons.mp ht with h | h
          · rw [h] at hc; exact Or.inl hc
          · rcases ih _ h hc with h0 | h0
            · simp at h0
            · exact Or.inr (by simp [h0])
      · rcases ih _ ht hc with h | h
        · rcases List.mem_append.mp h with h0 | h0
          · exact Or.inl h0
          · exact Or.inr (by simp [List.mem_singleton.mp h0])
        · exact Or.inr (by simp [h])

/-- Two-step unfolding of `List.intercalate` on a space separator. -/
lemma intercalate_cons₂ (a b : List Char) (rest : List (List Char)) :
    List.intercalate [' '] (a :: b :: rest)
      = a ++ ' ' :: List.intercalate [' '] (b :: rest) := by
  simp [List.intercalate, List.intersperse]

/-- Characters of an interleaving come from a token or are the separator. -/
lemma mem_intercalate {c : Char} :
    ∀ (ts : List (List Char)), c ∈ List.intercalate [' '] ts →
      c = ' ' ∨ ∃ t ∈ ts, c ∈ t := by
  intro ts
  induction ts with
  | nil => intro h; simp [List.intercalate] at h
  | cons a rest ih =>
      intro h
      cases rest with
      | nil =>
          refine Or.inr ⟨a, by simp, ?_⟩
          simpa [List.intercalate] using h
      | cons b rest' =>
          rw [intercalate_cons₂] at h
          rcases List.mem_append.mp h with h | h
          · exact Or.inr ⟨a, by simp, h⟩
          · rcases List.mem_cons.mp h with h | h
            · exact Or.inl h
            · rcases ih h with h0 | ⟨t, ht, hc⟩
              · exact Or.inl h0
              · exact Or.inr ⟨t, by simp [ht], hc⟩


/-- Decides that no maximal word run of the input (with `buf` the currently
open run) equals one of the articles `a`, `an`, `the`. -/
def noArtAux (buf : List Char) : List Char → Bool
  | [] => !isArticle buf
  | c :: cs => if isWordChar c then noArtAux (buf ++ [c]) cs
               else !isArticle buf && noArtAux [] cs

/-- On an all-word suffix, `noArtAux` just checks the completed run. -/
lemma noArtAux_word (w : List Char) :
    ∀ b, (∀ c ∈ w, isWordChar c = true) → noArtAux b w = !isArticle (b ++ w) := by
  induction w with
  | nil => intro b _; simp [noArtAux]
  | cons c cs ih =>
      intro b hw
      rw [noArtAux, if_pos (hw c (by simp))]
      rw [ih (b ++ [c]) (fun d hd => hw d (by simp [hd]))]
      simp

/-- Splitting `noArtAux` at the first non-word character after an all-word
prefix. -/
lemma noArtAux_word_append (w : List Char) :
    ∀ b (c : Char) (r : List Char), (∀ d ∈ w, isWordChar d = true) →
      isWordChar c = false →
      noArtAux b (w ++ c :: r) = (!isArticle (b ++ w) && noArtAux [] r) := by
  induction w with
  | nil =>
      intro b c r _ hc
      rw [List.nil_append, noArtAux, if_neg (by simp [hc])]
      simp
  | cons d ds ih =>
      intro b c r hw hc
      rw [List.cons_append, noArtAux, if_pos (hw d (by simp))]
      rw [ih (b ++ [d]) c r (fun e he => hw e (by simp [he])) hc]
      simp

/-- A `noArt` input passes through article removal unchanged. -/
lemma remArtAux_eq_self : ∀ (l buf : List Char), noArtAux buf l = true →
    remArtAux buf l = buf ++ l := by
  intro l
  induction l with
  | nil =>
      intro buf h
      rw [noArtAux] at h
      rw [remArtAux, flushBuf, if_neg (by simpa using h)]
      simp
  | cons c cs ih =>
      intro buf h
      rw [noArtAux] at h
      rw [remArtAux]
      split
      case isTrue hw =>
          rw [if_pos hw] at h
          rw [ih _ h]
          simp
      case isFalse hw =>
          rw [if_neg hw] at h
          simp only [Bool.and_eq_true, Bool.not_eq_true'] at h
          rw [flushBuf, if_neg (by simp [h.1]), ih _ h.2]
          simp

/-- The output of article removal contains no article word run. -/
lemma noArtAux_remArtAux : ∀ (l buf : List Char),
    (∀ c ∈ buf, isWordChar c = true) →
    noArtAux [] (remArtAux buf l) = true := by
  intro l
  induction l with
  | nil =>
      intro buf hbuf
      rw [remArtAux, flushBuf]
      split
      · rfl
      case isFalse ha =>
          rw [noArtAux_word buf [] hbuf]
          simpa using ha
  | cons c cs ih =>
      intro buf hbuf
      rw [remArtAux]
      split
      case isTrue hw =>
          exact ih (buf ++ [c]) (by
            intro d hd
            rcases List.mem_append.mp hd with h | h
            · exact hbuf d h
            · simpa [List.mem_singleton.mp h] using hw)
      case isFalse hw =>
          rw [flushBuf]
          split
          · rw [List.singleton_append, noArtAux, if_neg (by decide), noArtAux,
              if_neg (by simpa using hw)]
            simp [isArticle, ih [] (by simp)]
          case isFalse ha =>
            rw [noArtAux_word_append buf [] c (remArtAux [] cs) hbuf (by simpa using hw)]
            have ha' : isArticle buf = false := by simpa using ha
            simp [ha', ih [] (by simp)]


/-- Whitespace tokens of an article-free string are article-free: the open
word run `wb` is the word-suffix of the open token `tb`, expressed by the
closure property that any article-free continuation of `wb` completes `tb`
to an article-free string. -/
lemma wordsAux_noArt : ∀ (l tb wb : List Char),
    (∀ f, noArtAux wb f = true → noArtAux [] (tb ++ f) = true) →
    noArtAux wb l = true →
    ∀ t ∈ wordsAux tb l, noArtAux [] t = true := by
  intro l
  induction l with
  | nil =>
      intro tb wb hP hl t ht
      rw [wordsAux] at ht
      split at ht
      · simp at ht
      · rw [List.mem_singleton.mp ht]
        simpa using hP [] hl
  | cons c cs ih =>
      intro tb wb hP hl t ht
      by_cases hw : isWordChar c = true
      · rw [noArtAux, if_pos hw] at hl
        rw [wordsAux, if_neg (by simp [isWs_eq_false_of_word hw])] at ht
        refine ih (tb ++ [c]) (wb ++ [c]) ?_ hl t ht
        intro f hf
        have := hP (c :: f) (by rw [noArtAux, if_pos hw]; exact hf)
        simpa [List.append_assoc] using this
      · rw [noArtAux, if_neg hw] at hl
        simp only [Bool.and_eq_true, Bool.not_eq_true'] at hl
        by_cases hws : isWs c = true
        · rw [wordsAux, if_pos hws] at ht
          have hrest : ∀ t ∈ wordsAux [] cs, noArtAux [] t = true :=
            ih [] [] (fun f hf => by simpa using hf) hl.2
          split at ht
          · exact hrest t ht
          · rcases List.mem_cons.mp ht with h | h
            · rw [h]
              have := hP [] (by rw [noArtAux]; simp [hl.1])
              simpa using this
            · exact hrest t h
        · rw [wordsAux, if_neg hws] at ht
          refine ih (tb ++ [c]) [] ?_ hl.2 t ht
          intro f hf
          have := hP (c :: f) (by rw [noArtAux, if_neg hw]; simp [hl.1, hf])
          simpa [List.append_assoc] using this

/-- Article removal distributes over a non-word separator. -/
lemma remArtAux_append_nonword (u : List Char) :
    ∀ (buf v : List Char) (c : Char), isWordChar c = false →
      remArtAux buf (u ++ c :: v) = remArtAux buf u ++ c :: remArtAux [] v := by
  induction u with
  | nil =>
      intro buf v c hc
      show remArtAux buf (c :: v) = remArtAux buf [] ++ c :: remArtAux [] v
      rw [show remArtAux buf [] = flushBuf buf from rfl]
      rw [show remArtAux buf (c :: v)
          = if isWordChar c then remArtAux (buf ++ [c]) v
            else flushBuf buf ++ c :: remArtAux [] v from rfl]
      rw [if_neg (by simp [hc])]
  | cons d ds ih =>
      intro buf v c hc
      rw [List.cons_append, remArtAux, remArtAux]
      split
      · rw [ih _ _ _ hc]
      · rw [ih _ _ _ hc]
        simp

/-- Article removal maps an interleaving of tokens to the interleaving of
the article-removed tokens. -/
lemma remove_articles_intercalate : ∀ (ts : List (List Char)),
    remove_articles (List.intercalate [' '] ts)
      = List.intercalate [' '] (ts.map remove_articles) := by
  intro ts
  induction ts with
  | nil => simp [List.intercalate]; rfl
  | cons a rest ih =>
      cases rest with
      | nil => simp [List.intercalate]
      | cons b rest' =>
          rw [intercalate_cons₂]
          calc remove_articles (a ++ ' ' :: List.intercalate [' '] (b :: rest'))
              = remove_articles a ++ ' ' ::
                  remove_articles (List.intercalate [' '] (b :: rest')) := by
                unfold remove_articles
                exact remArtAux_append_nonword a [] _ ' ' (by decide)
            _ = remove_articles a ++ ' ' ::
                  List.intercalate [' '] (List.map remove_articles (b :: rest')) := by
                rw [ih]
            _ = List.intercalate [' '] (List.map remove_articles (a :: b :: rest')) := by
                simp [intercalate_cons₂]

/-- The splitter ignores a whitespace-free prefix, absorbing it into the
token buffer. -/
lemma wordsAux_wsfree_append (u : List Char) :
    ∀ (tb l : List Char), (∀ c ∈ u, isWs c = false) →
      wordsAux tb (u ++ l) = wordsAux (tb ++ u) l := by
  induction u with
  | nil => intro tb l _; simp
  | cons d ds ih =>
      intro tb l hu
      rw [List.cons_append, wordsAux, if_neg (by simp [hu d (by simp)])]
      rw [ih _ _ (fun c hc => hu c (by simp [hc]))]
      simp

/-- Tokens produced by the splitter are nonempty and whitespace-free. -/
lemma wordsAux_tokens : ∀ (l tb : List Char), (∀ c ∈ tb, isWs c = false) →
    ∀ t ∈ wordsAux tb l, t ≠ [] ∧ ∀ c ∈ t, isWs c = false := by
  intro l
  induction l with
  | nil =>
      intro tb htb t ht
      rw [wordsAux] at ht
      split at ht
      · simp at ht
      case isFalse h => exact ⟨by rw [List.mem_singleton.mp ht]; exact h, by
          rw [List.mem_singleton.mp ht]; exact htb⟩
  | cons c cs ih =>
      intro tb htb t ht
      rw [wordsAux] at ht
      split at ht
      · split at ht
        · exact ih [] (by simp) t ht
        case isFalse h =>
          rcases List.mem_cons.mp ht with h0 | h0
          · exact ⟨by rw [h0]; exact h, by rw [h0]; exact htb⟩
          · exact ih [] (by simp) t h0
      case isFalse h =>
        refine ih (tb ++ [c]) ?_ t ht
        intro d hd
        rcases List.mem_append.mp hd with hd | hd
        · exact htb d hd
        · rw [List.mem_singleton.mp hd]; simpa using h

/-- Splitting an interleaving of nonempty whitespace-free tokens recovers
exactly the tokens. -/
lemma pySplit_intercalate : ∀ (ts : List (List Char)),
    (∀ t ∈ ts, t ≠ [] ∧ ∀ c ∈ t, isWs c = false) →
    pySplit (List.intercalate [' '] ts) = ts := by
  intro ts
  induction ts with
  | nil => intro _; rfl
  | cons a rest ih =>
      intro h
      cases rest with
      | nil =>
          show wordsAux [] (List.intercalate [' '] [a]) = [a]
          rw [show List.intercalate [' '] [a] = a from by simp [List.intercalate]]
          rw [show wordsAux [] a = wordsAux [] (a ++ []) from by simp,
            wordsAux_wsfree_append a [] [] (h a (by simp)).2]
          rw [wordsAux, if_neg (by simpa using (h a (by simp)).1)]
          simp
      | cons b rest' =>
          show wordsAux [] (List.intercalate [' '] (a :: b :: rest')) = _
          rw [intercalate_cons₂,
            wordsAux_wsfree_append a [] _ (h a (by simp)).2]
          rw [wordsAux, if_pos (by decide), if_neg (by simpa using (h a (by simp)).1)]
          exact congrArg _ (ih (fun t ht => h t (by simp [ht])))


/-- Standard normalization, applied to its own output, is the identity (list
level). -/
lemma normStd_idem (l : List Char) :
    white_space_fix (remove_articles (remove_punc (lower
      (white_space_fix (remove_articles (remove_punc (lower l)))))))
      = white_space_fix (remove_articles (remove_punc (lower l))) := by
  set z := remove_punc (lower l) with hz
  set ts := pySplit (remove_articles z) with hts
  have htok : ∀ t ∈ ts, t ≠ [] ∧ ∀ c ∈ t, isWs c = false :=
    wordsAux_tokens _ [] (by simp)
  have hart_t : ∀ t ∈ ts, remove_articles t = t := by
    intro t ht
    have hnoart : noArtAux [] t = true :=
      wordsAux_noArt (remove_articles z) [] [] (fun f hf => by simpa using hf)
        (noArtAux_remArtAux z [] (by simp)) t ht
    have h := remArtAux_eq_self t [] hnoart
    simpa [remove_articles] using h
  have hmem : ∀ c ∈ List.intercalate [' '] ts, c = ' ' ∨ c ∈ z := by
    intro c hc
    rcases mem_intercalate ts hc with h | ⟨t, ht, hct⟩
    · exact Or.inl h
    · rcases mem_wordsAux (remove_articles z) [] ht hct with h | h
      · simp at h
      · rcases mem_remArtAux z [] h with h0 | h0 | h0
        · simp at h0
        · exact Or.inr h0
        · exact Or.inl h0
  have hlow : lower (List.intercalate [' '] ts) = List.intercalate [' '] ts := by
    apply map_eq_self_of_fixed
    intro c hc
    rcases hmem c hc with h | h
    · rw [h]; decide
    · exact lowerChar_fixed_of_mem_lower (mem_remove_punc h).1
  have hpunc : remove_punc (List.intercalate [' '] ts) = List.intercalate [' '] ts := by
    apply remove_punc_eq_self
    intro c hc
    rcases hmem c hc with h | h
    · rw [h]; decide
    · exact (mem_remove_punc h).2
  have hart : remove_articles (List.intercalate [' '] ts) = List.intercalate [' '] ts := by
    rw [remove_articles_intercalate]
    have hmap : List.map remove_articles ts = List.map id ts :=
      List.map_congr_left (fun t ht => hart_t t ht)
    rw [hmap, List.map_id]
  have hy : white_space_fix (remove_articles z) = List.intercalate [' '] ts := rfl
  rw [hy, hlow, hpunc, hart]
  show List.intercalate [' '] (pySplit (List.intercalate [' '] ts))
      = List.intercalate [' '] ts
  rw [pySplit_intercalate ts htok]

/-- C5: standard-mode normalization is idempotent — normalizing an already
standard-normalized string yields the same string. -/
theorem normalize_answer_idempotent (s : String) :
    normalize_answer (normalize_answer s "") "" = normalize_answer s "" := by
  show String.mk (white_space_fix (remove_articles (remove_punc (lower
      (white_space_fix (remove_articles (remove_punc (lower s.data))))))))
    = String.mk (white_space_fix (remove_articles (remove_punc (lower s.data))))
  exact congrArg String.mk (normStd_idem s.data)

end FusionBench
